import Mathlib

/-!
Verification development for the Autosys dependency-dashboard core
(`src/autosys_dashboard.py`).

The embedding below translates the core of the source into Lean:

* `parse_jil_script` / `processJilLine` / `parse_condition` embed
  `AutosysParser.parse_jil_script` and `AutosysParser._parse_condition`;
* `parse_autorep_output` / `processStatusLine` embed
  `AutosysParser.parse_autorep_output`;
* `build_graph`, `get_impacted_jobs` embed `NetworkVisualizer.build_graph`
  and `NetworkVisualizer.get_impacted_jobs`.

Python dictionaries are modelled as association lists with
insert-or-replace-in-place update (`upsertA`), matching `dict` semantics;
the `defaultdict(list)` of dependency edges is modelled as the
chronological list of `(parent, child)` pairs (the source groups the same
pairs in a dict keyed by parent; the recorded multiset of edges is
identical).  Python `set` becomes `Finset String`.  Python strings are
Lean `String`s; the string helpers below (`pyStrip`, `pySplit`,
`pyToUpper`, `pyLines`, `splitFirst`) reimplement the exact Python
primitives used by the source (`str.strip`, `str.split()`,
`str.upper` restricted to ASCII, `str.split('\n')`, `str.split(':', 1)`),
and `scanGo` reimplements `re.findall` for the three literal patterns
`success\(([^)]+)\)`, `done\(...\)`, `failure\(...\)` with
`re.IGNORECASE` (ASCII case folding): a leftmost, non-overlapping scan in
which each match captures the maximal run of non-`)` characters between
the predicate's `(` and the next `)`, requiring that run to be nonempty.
-/

set_option maxRecDepth 20000

/-- Python whitespace class used by `str.strip()` and `str.split()`. -/
def pyIsSpace (c : Char) : Bool :=
  c = ' ' || c = '\t' || c = '\n' || c = '\r' || c = '\x0b' || c = '\x0c'

/-- `str.strip()` on a character list. -/
def pyStripL (l : List Char) : List Char :=
  ((l.dropWhile pyIsSpace).reverse.dropWhile pyIsSpace).reverse

/-- Python `str.strip()`. -/
def pyStrip (s : String) : String := ⟨pyStripL s.toList⟩

/-- Worker for `str.split()` (split on whitespace runs, dropping empties).
`acc` holds the current token reversed. -/
def pySplitGo : List Char → List Char → List (List Char)
  | acc, [] => if acc = [] then [] else [acc.reverse]
  | acc, c :: cs =>
    if pyIsSpace c then
      if acc = [] then pySplitGo [] cs else acc.reverse :: pySplitGo [] cs
    else
      pySplitGo (c :: acc) cs

/-- Python `str.split()` (no separator argument). -/
def pySplit (s : String) : List String :=
  (pySplitGo [] s.toList).map (fun l => ⟨l⟩)

/-- Worker for `str.split(sep)` with an explicit separator: empties kept. -/
def splitOnCharGo (sep : Char) : List Char → List Char → List (List Char)
  | acc, [] => [acc.reverse]
  | acc, c :: cs =>
    if c = sep then acc.reverse :: splitOnCharGo sep [] cs
    else splitOnCharGo sep (c :: acc) cs

/-- Python `content.split('\n')`. -/
def pyLines (s : String) : List String :=
  (splitOnCharGo '\n' [] s.toList).map (fun l => ⟨l⟩)

/-- Python `str.upper()` (ASCII range, which is all the source feeds it). -/
def pyToUpper (s : String) : String := ⟨s.toList.map Char.toUpper⟩

/-- `leadsWith p s` ⟺ the list `s` begins with `p` (Python `str.startswith`). -/
def leadsWith : List Char → List Char → Bool
  | [], _ => true
  | _ :: _, [] => false
  | a :: as, b :: bs => (a = b) && leadsWith as bs

/-- Python `str.startswith`. -/
def strStartsWith (s p : String) : Bool := leadsWith p.toList s.toList

/-- Substring test (used only to state occurrence facts about conditions). -/
def listContainsSub (needle : List Char) : List Char → Bool
  | [] => needle.isEmpty
  | c :: cs => leadsWith needle (c :: cs) || listContainsSub needle cs

/-- Python `line.split(sep, 1)`: the part before the first `sep` and the
part after it.  When `sep` does not occur the second component is `[]`;
the source only uses the result under a `sep in line` guard. -/
def splitFirst (sep : Char) : List Char → List Char × List Char
  | [] => ([], [])
  | c :: cs =>
    if c = sep then ([], cs)
    else
      let p := splitFirst sep cs
      (c :: p.1, p.2)

/-- `len(s)` / `s[:n]` / `s[n:]` (Python slicing is by characters). -/
def strLen (s : String) : Nat := s.toList.length

/-- Python `s[:n]`. -/
def strTake (s : String) (n : Nat) : String := ⟨s.toList.take n⟩

/-- Python `s[n:]`. -/
def strDrop (s : String) (n : Nat) : String := ⟨s.toList.drop n⟩

/-- Concatenation of a list of lists (kept as a local primitive). -/
def concatLists {α : Type} : List (List α) → List α
  | [] => []
  | l :: ls => l ++ concatLists ls

/-- Association-list lookup, Python `d[k]` / `k in d` on dicts. -/
def lookupA {β : Type} : List (String × β) → String → Option β
  | [], _ => none
  | (k', v) :: rest, k => if k = k' then some v else lookupA rest k

/-- Python `d[k] = v`: replace in place if the key exists, else append. -/
def upsertA {β : Type} : List (String × β) → String → β → List (String × β)
  | [], k, v => [(k, v)]
  | (k', v') :: rest, k, v =>
    if k' = k then (k, v) :: rest else (k', v') :: upsertA rest k v

/-! ## The condition-regex scan (`re.findall`, `_parse_condition`) -/

/-- Split a character list at the first `')'`: returns the characters
before it and the characters after it, or `none` when there is no `')'`. -/
def splitAtRParen : List Char → Option (List Char × List Char)
  | [] => none
  | c :: cs =>
    if c = ')' then some ([], cs)
    else
      match splitAtRParen cs with
      | none => none
      | some (a, b) => some (c :: a, b)

/-- Case-insensitive "begins with" (`re.IGNORECASE` on the pattern literal). -/
def ciLeads : List Char → List Char → Bool
  | [], _ => true
  | _ :: _, [] => false
  | a :: as, b :: bs => (a.toLower = b.toLower) && ciLeads as bs

/-- One `re.findall` scan for the pattern `needle ++ "(" ++ [^)]+ ++ ")"`
where `needle` already carries its trailing `'('`: leftmost non-overlapping
matches, each capture being the nonempty run of non-`)` characters up to the
next `')'`.  The fuel argument is for structural termination only; every
recursive call shortens the list by at least one character, so fuel equal to
the list length (as supplied by `findallCapture`) never runs out. -/
def scanGo (needle : List Char) : Nat → List Char → List (List Char)
  | 0, _ => []
  | _ + 1, [] => []
  | fuel + 1, c :: cs =>
    if ciLeads needle (c :: cs) then
      match splitAtRParen (List.drop needle.length (c :: cs)) with
      | some (cap, rest) =>
        if cap = [] then scanGo needle fuel cs else cap :: scanGo needle fuel rest
      | none => scanGo needle fuel cs
    else scanGo needle fuel cs

/-- `re.findall(pred + r'\(([^)]+)\)', condition, re.IGNORECASE)`. -/
def findallCapture (pred condition : String) : List String :=
  (scanGo (pred.toList ++ ['(']) condition.toList.length condition.toList).map
    (fun l => ⟨l⟩)

/-- The three predicate names scanned by `_parse_condition`, in source order. -/
def preds : List String := ["success", "done", "failure"]

/-- `AutosysParser._parse_condition`: raw `(parent, child)` edges extracted
from one condition string for the job `job_name`.  For each pattern, each
capture is stripped and recorded as an edge onto `job_name` unless it equals
`job_name` (self-dependency avoided). -/
def parse_condition (job_name condition : String) : List (String × String) :=
  if condition = "" then []
  else
    concatLists (preds.map (fun p =>
      (findallCapture p condition).filterMap (fun m =>
        if pyStrip m ≠ job_name then some (pyStrip m, job_name) else none)))

/-! ## Job records and the JIL parser (`parse_jil_script`) -/

/-- One parsed job definition (the dict created for `insert_job:`). -/
structure JobRec where
  name : String
  job_type : String
  command : String
  condition : String
  description : String
  machine : String
  owner : String
deriving DecidableEq

/-- The fresh record created for `insert_job: n`. -/
def defaultJob (n : String) : JobRec :=
  ⟨n, "cmd", "", "", "", "", ""⟩

/-- The parser's `self.jobs` dict. -/
abbrev JobMap := List (String × JobRec)

/-- One parsed status-report row (a `self.job_status` value). -/
structure StatusRec where
  status : String
  last_start : String
  last_end : String
deriving DecidableEq

/-- The parser's `self.job_status` dict. -/
abbrev StatusMap := List (String × StatusRec)

/-- The mutable state of an `AutosysParser` object. -/
structure ParserState where
  jobs : JobMap
  dependencies : List (String × String)
  job_status : StatusMap
deriving DecidableEq

/-- `AutosysParser.__init__`. -/
def initState : ParserState := ⟨[], [], []⟩

/-- The field update applied by the `key == '...'` chain of
`parse_jil_script`; unrecognized keys update nothing.  (The source's `elif`
chain mutates one field of the current job's dict; `id` for the fall-through
is behaviourally the same as not touching the record.) -/
def fieldApply (key value : String) : JobRec → JobRec :=
  if key = "job_type" then fun r => { r with job_type := value }
  else if key = "command" then fun r => { r with command := value }
  else if key = "condition" then fun r => { r with condition := value }
  else if key = "description" then fun r => { r with description := value }
  else if key = "machine" then fun r => { r with machine := value }
  else if key = "owner" then fun r => { r with owner := value }
  else id

/-- `self.jobs[current_job][key] = value` (only the entry of `c` changes). -/
def setJobField (m : JobMap) (c : String) (f : JobRec → JobRec) : JobMap :=
  m.map (fun kv => if kv.1 = c then (kv.1, f kv.2) else kv)

/-- Apply one recognized-or-ignored `key: value` line to the jobs dict. -/
def applyField (m : JobMap) (c key value : String) : JobMap :=
  setJobField m c (fieldApply key value)

/-- The key of a `key: value` line: `line.split(':', 1)[0].strip()`
computed on the stripped line. -/
def jilKeyOf (rawLine : String) : String :=
  pyStrip ⟨(splitFirst ':' (pyStrip rawLine).toList).1⟩

/-- The value of a `key: value` line (also the job name of an
`insert_job:` line): `line.split(':', 1)[1].strip()` on the stripped line. -/
def jilValOf (rawLine : String) : String :=
  pyStrip ⟨(splitFirst ':' (pyStrip rawLine).toList).2⟩

/-- The dependency edges contributed by one `key: value` line: the
`condition` key also runs `_parse_condition(current_job, value)`. -/
def condEdges (c key value : String) : List (String × String) :=
  if key = "condition" then parse_condition c value else []

/-- One iteration of the `for line in jil_content.split('\n')` loop of
`parse_jil_script`.  `cur` is the `current_job` variable; Python's
truthiness test `current_job and ':' in line` makes both `None` and the
empty job name inactive. -/
def processJilLine (st : ParserState) (cur : Option String) (rawLine : String) :
    ParserState × Option String :=
  let line := pyStrip rawLine
  if strStartsWith line "insert_job:" then
    ({ st with jobs := upsertA st.jobs (jilValOf rawLine) (defaultJob (jilValOf rawLine)) },
     some (jilValOf rawLine))
  else
    match cur with
    | some c =>
      if c ≠ "" ∧ line.toList.contains ':' then
        ({ st with
            jobs := applyField st.jobs c (jilKeyOf rawLine) (jilValOf rawLine),
            dependencies :=
              st.dependencies ++ condEdges c (jilKeyOf rawLine) (jilValOf rawLine) },
         cur)
      else (st, cur)
    | none => (st, cur)

/-- The line loop of `parse_jil_script`. -/
def runJil : ParserState × Option String → List String → ParserState × Option String
  | p, [] => p
  | p, l :: ls => runJil (processJilLine p.1 p.2 l) ls

/-- `AutosysParser.parse_jil_script` (the method mutates `self`; here the
pre-state comes in and the post-state comes out; `current_job` starts at
`None` on every call). -/
def parse_jil_script (st : ParserState) (content : String) : ParserState :=
  (runJil (st, none) (pyLines content)).1

/-! Proof-auxiliary mirrors of the per-line effect of `processJilLine`
(each component of the state evolves independently of the others). -/

/-- Jobs component of one line step. -/
def jobsStep (m : JobMap) (cur : Option String) (rawLine : String) : JobMap :=
  let line := pyStrip rawLine
  if strStartsWith line "insert_job:" then
    upsertA m (jilValOf rawLine) (defaultJob (jilValOf rawLine))
  else
    match cur with
    | some c =>
      if c ≠ "" ∧ line.toList.contains ':' then
        applyField m c (jilKeyOf rawLine) (jilValOf rawLine)
      else m
    | none => m

/-- `current_job` component of one line step. -/
def curStep (cur : Option String) (rawLine : String) : Option String :=
  let line := pyStrip rawLine
  if strStartsWith line "insert_job:" then some (jilValOf rawLine)
  else cur

/-- Dependency edges appended by one line step. -/
def depsStep (cur : Option String) (rawLine : String) : List (String × String) :=
  let line := pyStrip rawLine
  if strStartsWith line "insert_job:" then []
  else
    match cur with
    | some c =>
      if c ≠ "" ∧ line.toList.contains ':' then
        condEdges c (jilKeyOf rawLine) (jilValOf rawLine)
      else []
    | none => []

/-- Jobs dict after running a list of lines (proof auxiliary). -/
def jilJobs (m : JobMap) (cur : Option String) : List String → JobMap
  | [] => m
  | l :: ls => jilJobs (jobsStep m cur l) (curStep cur l) ls

/-- `current_job` after running a list of lines (proof auxiliary). -/
def jilCur (cur : Option String) : List String → Option String
  | [] => cur
  | l :: ls => jilCur (curStep cur l) ls

/-- Dependency edges appended while running a list of lines (proof
auxiliary). -/
def jilDeps (cur : Option String) : List String → List (String × String)
  | [] => []
  | l :: ls => depsStep cur l ++ jilDeps (curStep cur l) ls

/-- The job names of the `insert_job:` lines in a list of lines. -/
def jilUpserts : List String → List String
  | [] => []
  | l :: ls =>
    (if strStartsWith (pyStrip l) "insert_job:" then [jilValOf l] else []) ++
      jilUpserts ls

/-- `cur` actively targets key `k` (nonempty current job named `k`). -/
def activeOn (cur : Option String) (k : String) : Prop :=
  cur = some k ∧ k ≠ ""

/-! ## The status-report parser (`parse_autorep_output`) -/

/-- `status_mapping.get(status.upper(), status.upper())` with the literal
table of the source. -/
def statusMapping (status : String) : String :=
  if pyToUpper status = "SU" then "SUCCESS"
  else if pyToUpper status = "RU" then "RUNNING"
  else if pyToUpper status = "FA" then "FAILED"
  else if pyToUpper status = "TE" then "TERMINATED"
  else if pyToUpper status = "IN" then "INACTIVE"
  else if pyToUpper status = "AC" then "ACTIVATED"
  else if pyToUpper status = "OH" then "ON_HOLD"
  else if pyToUpper status = "ST" then "STARTING"
  else pyToUpper status

/-- The record stored by the fixed-width branch (line longer than 60
characters, at least 3 whitespace tokens after position 60).  The
`if 1 < parts.length` test mirrors the source's conditional expression for
`last_start` even though it is always true under `3 ≤ parts.length`. -/
def fixedRec (parts : List String) : StatusRec :=
  let last_start :=
    if 1 < parts.length then parts.getD 0 "" ++ " " ++ parts.getD 1 ""
    else parts.getD 0 ""
  let last_end :=
    if 3 < parts.length ∧ parts.getD 2 "" ≠ "-----" then
      parts.getD 2 "" ++ " " ++ parts.getD 3 ""
    else parts.getD 2 ""
  let status := if 4 < parts.length then parts.getD 4 "" else "UNKNOWN"
  ⟨statusMapping status,
   if last_start ≠ "-----" then last_start else "Not Started",
   if last_end ≠ "-----" then last_end else "Not Completed"⟩

/-- The record stored by the fallback branch (line of at most 60
characters): last token uppercased (or `UNKNOWN` for a single token),
timestamps `Unknown`. -/
def fallbackRec (parts : List String) : StatusRec :=
  ⟨pyToUpper (if 1 < parts.length then parts.getLastD "" else "UNKNOWN"),
   "Unknown", "Unknown"⟩

/-- One iteration of the line loop of `parse_autorep_output`. -/
def processStatusLine (m : StatusMap) (line : String) : StatusMap :=
  if pyStrip line ≠ "" ∧ strStartsWith line "Job Name" = false then
    if 60 < strLen line then
      if 3 ≤ (pySplit (pyStrip (strDrop line 60))).length then
        upsertA m (pyStrip (strTake line 60))
          (fixedRec (pySplit (pyStrip (strDrop line 60))))
      else m
    else
      if 1 ≤ (pySplit line).length then
        upsertA m ((pySplit line).getD 0 "") (fallbackRec (pySplit line))
      else m
  else m

/-- `AutosysParser.parse_autorep_output` (mutates `self.job_status`; the
pre-map comes in and the post-map comes out). -/
def parse_autorep_output (m : StatusMap) (content : String) : StatusMap :=
  (pyLines (pyStrip content)).foldl processStatusLine m

/-! ## Graph building and impact analysis (`NetworkVisualizer`) -/

/-- An `nx.DiGraph` up to its node and edge sets (node attributes are not
consumed by any verified operation). -/
structure Graph where
  nodes : List String
  edges : List (String × String)
deriving DecidableEq

/-- `NetworkVisualizer.build_graph`: one node per job name; each raw edge is
added exactly when both endpoints are keys of the jobs dict. -/
def build_graph (jobs : JobMap) (dependencies : List (String × String)) : Graph :=
  { nodes := jobs.map (fun kv => kv.1),
    edges := dependencies.filter
      (fun e => (lookupA jobs e.1).isSome && (lookupA jobs e.2).isSome) }

/-- `list(self.graph.successors(v))`: targets of the edges leaving `v`. -/
def successors (g : Graph) (v : String) : List String :=
  (g.edges.filter (fun e => e.1 = v)).map (fun e => e.2)

/-- One breadth step of reachability: a set together with all successors of
its members. -/
def stepClosure (g : Graph) (S : Finset String) : Finset String :=
  S ∪ S.biUnion (fun v => (successors g v).toFinset)

/-- Iterated breadth steps. -/
def closureIter (g : Graph) (S : Finset String) : Nat → Finset String
  | 0 => S
  | n + 1 => stepClosure g (closureIter g S n)

/-- `nx.descendants(self.graph, v)`: all nodes reachable from `v`, the
source itself excluded (networkx's BFS never reports the start node, even
on a cycle through it).  `edges.length + 1` breadth steps always reach the
fixpoint, as proved below. -/
def nxDescendants (g : Graph) (v : String) : Finset String :=
  (closureIter g {v} (g.edges.length + 1)).erase v

/-- `NetworkVisualizer.get_impacted_jobs`. -/
def get_impacted_jobs (g : Graph) (job_name status : String) : Finset String :=
  if status = "FAILED" ∨ status = "TERMINATED" then
    if job_name ∈ g.nodes then nxDescendants g job_name else ∅
  else if status = "RUNNING" then
    if job_name ∈ g.nodes then (successors g job_name).toFinset else ∅
  else ∅

/-- The edge relation of a graph. -/
abbrev EdgeRel (g : Graph) (u w : String) : Prop := (u, w) ∈ g.edges

/-! ## Concrete inputs used by witnesses and counterexamples -/

/-- A run of spaces (for building fixed-width report lines). -/
def mkSpaces (n : Nat) : String := ⟨List.replicate n ' '⟩

/-- A three-node chain graph A → B → C. -/
def gWit : Graph := ⟨["A", "B", "C"], [("A", "B"), ("B", "C")]⟩

/-- A two-node cycle A → B → A (obtainable from mutually dependent jobs). -/
def gCyc : Graph := ⟨["A", "B"], [("A", "B"), ("B", "A")]⟩

/-- A JIL script defining jobs A and B with B depending on A. -/
def tEx : String := "insert_job: A\ninsert_job: B\ncondition: success(A)"

/-- A 61-character report line whose post-boundary remainder has a single
token: `"A"`, 59 spaces, `"B"`. -/
def cexLine6 : String := "A" ++ mkSpaces 59 ++ "B"

/-- A report line whose remainder is `----- ----- SU` (job never started;
the start-timestamp field is the `-----` placeholder). -/
def cex7line : String := "JOB_A" ++ mkSpaces 55 ++ "----- ----- SU"

/-- A well-formed 5-token fixed-width report line with status code `SU`. -/
def cex8line : String :=
  "JOB1" ++ mkSpaces 56 ++ "2024/01/01 10:00 2024/01/01 11:00 SU"

/-- A 61-character line whose remainder is all spaces (zero tokens). -/
def cex8short : String := "B" ++ mkSpaces 60

/-- A 4-token fixed-width line: start timestamp present, end timestamp the
`-----` placeholder, status code `SU` in the last position. -/
def wit9line : String := "J2" ++ mkSpaces 58 ++ "2024/01/01 10:00 ----- SU"

/-- A parser state in which job A is already defined with non-default
fields and one recorded edge. -/
def stW : ParserState :=
  ⟨[("A", ⟨"A", "box", "run.sh", "success(Z)", "", "m1", "u1"⟩)], [("Z", "A")], []⟩

/-- A two-job map (for exercising `build_graph`). -/
def jW : JobMap := [("A", defaultJob "A"), ("B", defaultJob "B")]

/-- Raw edges: one between known jobs, one naming the unknown job X. -/
def depsW : List (String × String) := [("A", "B"), ("A", "X")]

/-- A one-job map (for the self-edge counterexample). -/
def jCex : JobMap := [("A", defaultJob "A")]

/-! # Theorems

General lemmas about the association-list dictionaries, then one theorem
(plus witness / counterexample) per specification claim. -/

theorem lookupA_upsertA_self {β : Type} (m : List (String × β)) (k : String) (v : β) :
    lookupA (upsertA m k v) k = some v := by
  induction m with
  | nil => simp [upsertA, lookupA]
  | cons kv rest ih =>
    obtain ⟨k2, v2⟩ := kv
    by_cases h : k2 = k
    · subst h
      simp [upsertA, lookupA]
    · simp only [upsertA]
      rw [if_neg h]
      simp only [lookupA]
      rw [if_neg (fun hk => h hk.symm)]
      exact ih

theorem lookupA_upsertA_ne {β : Type} (m : List (String × β)) (k k' : String) (v : β)
    (h : k' ≠ k) : lookupA (upsertA m k v) k' = lookupA m k' := by
  induction m with
  | nil => simp [upsertA, lookupA, h]
  | cons kv rest ih =>
    obtain ⟨k2, v2⟩ := kv
    by_cases hk : k2 = k
    · subst hk
      simp only [upsertA, if_pos rfl, lookupA]
      rw [if_neg h, if_neg h]
    · simp only [upsertA]
      rw [if_neg hk]
      simp only [lookupA]
      by_cases he : k' = k2
      · rw [if_pos he, if_pos he]
      · rw [if_neg he, if_neg he]
        exact ih

theorem lookupA_isSome_iff {β : Type} (m : List (String × β)) (k : String) :
    (lookupA m k).isSome = true ↔ ∃ v, (k, v) ∈ m := by
  induction m with
  | nil => simp [lookupA]
  | cons kv rest ih =>
    obtain ⟨k2, v2⟩ := kv
    simp only [lookupA]
    by_cases h : k = k2
    · subst h
      refine ⟨fun _ => ⟨v2, List.mem_cons_self _ _⟩, fun _ => ?_⟩
      simp
    · rw [if_neg h, ih]
      constructor
      · rintro ⟨v, hv⟩
        exact ⟨v, List.mem_cons_of_mem _ hv⟩
      · rintro ⟨v, hv⟩
        rcases List.mem_cons.mp hv with he | hm
        · exact absurd (congrArg Prod.fst he) h
        · exact ⟨v, hm⟩

/-! ## Status-parser branch lemmas -/

theorem processStatusLine_long (m : StatusMap) (line : String)
    (h1 : pyStrip line ≠ "") (h2 : strStartsWith line "Job Name" = false)
    (h3 : 60 < strLen line) :
    processStatusLine m line =
      if 3 ≤ (pySplit (pyStrip (strDrop line 60))).length then
        upsertA m (pyStrip (strTake line 60))
          (fixedRec (pySplit (pyStrip (strDrop line 60))))
      else m := by
  unfold processStatusLine
  rw [if_pos ⟨h1, h2⟩, if_pos h3]

theorem processStatusLine_short (m : StatusMap) (line : String)
    (h1 : pyStrip line ≠ "") (h2 : strStartsWith line "Job Name" = false)
    (h3 : ¬ 60 < strLen line) :
    processStatusLine m line =
      if 1 ≤ (pySplit line).length then
        upsertA m ((pySplit line).getD 0 "") (fallbackRec (pySplit line))
      else m := by
  unfold processStatusLine
  rw [if_pos ⟨h1, h2⟩, if_neg h3]

theorem pySplitGo_ne_nil (l acc : List Char) (h : acc ≠ []) :
    pySplitGo acc l ≠ [] := by
  induction l generalizing acc with
  | nil => simp [pySplitGo, h]
  | cons c cs ih =>
    simp only [pySplitGo]
    by_cases hs : pyIsSpace c
    · simp [hs, h]
    · rw [if_neg hs]
      exact ih _ (by simp)

theorem pySplitGo_nil_ne_nil (l : List Char) (c : Char) (hc : c ∈ l)
    (h : pyIsSpace c = false) : pySplitGo [] l ≠ [] := by
  induction l with
  | nil => cases hc
  | cons c' cs ih =>
    simp only [pySplitGo]
    by_cases hs : pyIsSpace c'
    · rw [if_pos hs]
      simp only [if_true]
      rcases List.mem_cons.mp hc with he | hm
      · subst he
        rw [h] at hs
        cases hs
      · exact ih hm
    · rw [if_neg hs]
      exact pySplitGo_ne_nil _ _ (by simp)

theorem exists_nonspace_of_pyStrip_ne (s : String) (h : pyStrip s ≠ "") :
    ∃ c ∈ s.toList, pyIsSpace c = false := by
  by_contra hall
  push_neg at hall
  apply h
  have hs : ∀ c ∈ s.toList, pyIsSpace c = true := by
    intro c hc
    have := hall c hc
    simpa using this
  have hdrop : s.toList.dropWhile pyIsSpace = [] :=
    List.dropWhile_eq_nil_iff.mpr hs
  show pyStrip s = ""
  unfold pyStrip pyStripL
  rw [hdrop]
  rfl

theorem pySplit_ne_nil (s : String) (h : pyStrip s ≠ "") : pySplit s ≠ [] := by
  obtain ⟨c, hc, hcs⟩ := exists_nonspace_of_pyStrip_ne s h
  unfold pySplit
  intro hmap
  exact pySplitGo_nil_ne_nil _ _ hc hcs (List.map_eq_nil_iff.mp hmap)

/-! ## C5 — the status-code mapping -/

/-- C5: the status-code mapping is a total pure function: the eight table
codes map to their canonical names and every string whose uppercasing is
outside the table maps to itself uppercased. -/
theorem statusMapping_spec :
    (statusMapping "SU" = "SUCCESS" ∧ statusMapping "RU" = "RUNNING" ∧
     statusMapping "FA" = "FAILED" ∧ statusMapping "TE" = "TERMINATED" ∧
     statusMapping "IN" = "INACTIVE" ∧ statusMapping "AC" = "ACTIVATED" ∧
     statusMapping "OH" = "ON_HOLD" ∧ statusMapping "ST" = "STARTING")
  ∧ ∀ s : String,
      pyToUpper s ∉ (["SU", "RU", "FA", "TE", "IN", "AC", "OH", "ST"] : List String) →
      statusMapping s = pyToUpper s := by
  constructor
  · exact ⟨by decide, by decide, by decide, by decide, by decide, by decide,
      by decide, by decide⟩
  · intro s h
    unfold statusMapping
    split_ifs with h1 h2 h3 h4 h5 h6 h7 h8
    · exact absurd (by rw [h1]; decide) h
    · exact absurd (by rw [h2]; decide) h
    · exact absurd (by rw [h3]; decide) h
    · exact absurd (by rw [h4]; decide) h
    · exact absurd (by rw [h5]; decide) h
    · exact absurd (by rw [h6]; decide) h
    · exact absurd (by rw [h7]; decide) h
    · exact absurd (by rw [h8]; decide) h
    · rfl

/-- Witness for C5: a concrete unknown code passes through uppercased. -/
theorem statusMapping_spec_witness : statusMapping "zz" = "ZZ" :=
  (statusMapping_spec.2 "zz" (by decide)).trans (by decide)

/-! ## C6 — fallback mode of the status-report parser -/

/-- C6 (amended): a non-blank, non-header line of at most 60 characters is
handled in fallback mode — the entry is keyed by the first whitespace
token, its status is the last token uppercased (or `UNKNOWN` when there is
a single token), both timestamps are `Unknown`, and no other key changes.
A line longer than 60 characters whose post-boundary remainder has fewer
than 3 whitespace tokens yields no entry at all (it is dropped, not sent
to fallback mode). -/
theorem autorep_fallback_spec (m : StatusMap) (line : String) :
    (pyStrip line ≠ "" → strStartsWith line "Job Name" = false →
      strLen line ≤ 60 →
      lookupA (processStatusLine m line) ((pySplit line).getD 0 "")
          = some ⟨pyToUpper (if 1 < (pySplit line).length then
                    (pySplit line).getLastD "" else "UNKNOWN"),
                  "Unknown", "Unknown"⟩
        ∧ ∀ k, k ≠ (pySplit line).getD 0 "" →
            lookupA (processStatusLine m line) k = lookupA m k)
  ∧ (pyStrip line ≠ "" → strStartsWith line "Job Name" = false →
      60 < strLen line → (pySplit (pyStrip (strDrop line 60))).length < 3 →
      processStatusLine m line = m) := by
  constructor
  · intro h1 h2 h3
    rw [processStatusLine_short m line h1 h2 (not_lt.mpr h3)]
    have hne : pySplit line ≠ [] := pySplit_ne_nil line h1
    rw [if_pos (Nat.one_le_iff_ne_zero.mpr (fun h0 => hne (List.length_eq_zero.mp h0)))]
    exact ⟨lookupA_upsertA_self _ _ _, fun k hk => lookupA_upsertA_ne _ _ _ _ hk⟩
  · intro h1 h2 h3 h4
    rw [processStatusLine_long m line h1 h2 h3, if_neg (not_le.mpr h4)]

/-- Witness for C6: a short line produces the fallback entry, and a
61-character line with a one-token remainder produces nothing. -/
theorem autorep_fallback_spec_witness :
    lookupA (processStatusLine [] "JOB_X su") "JOB_X"
        = some ⟨"SU", "Unknown", "Unknown"⟩
  ∧ processStatusLine [] cexLine6 = [] := by
  refine ⟨?_, (autorep_fallback_spec [] cexLine6).2 (by decide) (by decide)
      (by decide) (by decide)⟩
  have h := ((autorep_fallback_spec [] "JOB_X su").1 (by decide) (by decide)
      (by decide)).1
  exact h

/-- Counterexample for C6 as frozen: `cexLine6` is non-blank, non-header
and does not fit the fixed-width shape (61 characters, a single token
after the boundary), yet the parser records no entry at all — fallback
mode does not apply to it. -/
theorem autorep_fallback_cex :
    60 < strLen cexLine6
  ∧ pyStrip cexLine6 ≠ ""
  ∧ strStartsWith cexLine6 "Job Name" = false
  ∧ pySplit cexLine6 = ["A", "B"]
  ∧ (pySplit (pyStrip (strDrop cexLine6 60))).length = 1
  ∧ processStatusLine [] cexLine6 = [] := by
  exact ⟨by decide, by decide, by decide, by decide, by decide, by decide⟩

/-! ## C7 — the `Not Started` sentinel is dead in fixed-width mode -/

/-- C7: the source's own `'Not Started'` branch is meant to replace a
placeholder start timestamp, but `last_start` is always built as
`parts[0] + ' ' + parts[1]` (the guard `len(parts) > 1` is implied by
`len(parts) >= 3`), so it always contains a space and never equals
`'-----'`.  At this concrete line, whose start-timestamp field is the
placeholder, the recorded `last_start` is `'----- -----'`, not
`'Not Started'` (and the end field absorbs the status code). -/
theorem autorep_not_started_dead :
    pySplit (pyStrip (strDrop cex7line 60)) = ["-----", "-----", "SU"]
  ∧ lookupA (processStatusLine [] cex7line) "JOB_A"
      = some ⟨"UNKNOWN", "----- -----", "SU"⟩ := by
  exact ⟨by decide, by decide⟩

/-! ## C8 — fixed-width mode of the status-report parser -/

theorem fixedRec_status (parts : List String) :
    (fixedRec parts).status
      = statusMapping (if 4 < parts.length then parts.getD 4 "" else "UNKNOWN") := rfl

/-- C8 (amended): for a non-blank, non-header line longer than 60
characters whose post-boundary remainder has at least 3 whitespace tokens,
fixed-width mode records an entry under the trimmed first 60 characters,
whose status is the status-code mapping applied to the 5th remainder token
when one exists and to `UNKNOWN` otherwise, and no other key changes; a
longer line with fewer than 3 remainder tokens yields no entry. -/
theorem autorep_fixedwidth_spec (m : StatusMap) (line : String) :
    (∀ parts, parts = pySplit (pyStrip (strDrop line 60)) →
      pyStrip line ≠ "" → strStartsWith line "Job Name" = false →
      60 < strLen line → 3 ≤ parts.length →
      lookupA (processStatusLine m line) (pyStrip (strTake line 60))
          = some (fixedRec parts)
        ∧ (fixedRec parts).status
            = statusMapping (if 4 < parts.length then parts.getD 4 "" else "UNKNOWN")
        ∧ ∀ k, k ≠ pyStrip (strTake line 60) →
            lookupA (processStatusLine m line) k = lookupA m k)
  ∧ (pyStrip line ≠ "" → strStartsWith line "Job Name" = false →
      60 < strLen line → (pySplit (pyStrip (strDrop line 60))).length < 3 →
      processStatusLine m line = m) := by
  constructor
  · intro parts hp h1 h2 h3 h4
    subst hp
    rw [processStatusLine_long m line h1 h2 h3, if_pos h4]
    exact ⟨lookupA_upsertA_self _ _ _, fixedRec_status _,
      fun k hk => lookupA_upsertA_ne _ _ _ _ hk⟩
  · intro h1 h2 h3 h4
    rw [processStatusLine_long m line h1 h2 h3, if_neg (not_le.mpr h4)]

/-- Witness for C8: a 5-token line records its fixed-width entry, and a
61-character line with an all-space remainder records nothing. -/
theorem autorep_fixedwidth_spec_witness :
    lookupA (processStatusLine [] cex8line) "JOB1"
        = some (fixedRec (pySplit (pyStrip (strDrop cex8line 60))))
  ∧ processStatusLine [] cex8short = [] := by
  refine ⟨?_, (autorep_fixedwidth_spec [] cex8short).2 (by decide) (by decide)
      (by decide) (by decide)⟩
  have h := ((autorep_fixedwidth_spec [] cex8line).1 _ rfl (by decide)
      (by decide) (by decide) (by decide)).1
  exact h

/-- Counterexample for C8 as frozen: the 5th token of this line is `SU`,
but the recorded status is the mapped `SUCCESS`, not the token itself. -/
theorem autorep_fixedwidth_cex :
    (pySplit (pyStrip (strDrop cex8line 60))).getD 4 "" = "SU"
  ∧ lookupA (processStatusLine [] cex8line) "JOB1"
      = some ⟨"SUCCESS", "2024/01/01 10:00", "2024/01/01 11:00"⟩
  ∧ ("SUCCESS" : String) ≠ "SU" := by
  exact ⟨by decide, by decide, by decide⟩

/-! ## C9 — a 4-token remainder with a `-----` end placeholder -/

/-- C9: on a long line whose remainder is exactly
`[start-date, start-time, "-----", status-code]`, the status-code token is
in the 4th position, the parser looks only at a 5th position, and the
recorded status is `UNKNOWN` no matter what the 4th token says. -/
theorem autorep_end_placeholder_unknown (m : StatusMap) (line a b d : String)
    (h1 : pyStrip line ≠ "") (h2 : strStartsWith line "Job Name" = false)
    (h3 : 60 < strLen line)
    (h4 : pySplit (pyStrip (strDrop line 60)) = [a, b, "-----", d]) :
    (lookupA (processStatusLine m line) (pyStrip (strTake line 60))).map
        (fun r => r.status) = some "UNKNOWN" := by
  rw [processStatusLine_long m line h1 h2 h3, h4]
  rw [if_pos (by simp)]
  rw [lookupA_upsertA_self]
  simp only [Option.map_some']
  rw [fixedRec_status]
  rw [if_neg (by simp)]
  decide

/-- Witness for C9 at a concrete line whose 4th token is `SU`. -/
theorem autorep_end_placeholder_unknown_witness :
    (lookupA (processStatusLine [] wit9line) "J2").map (fun r => r.status)
      = some "UNKNOWN" := by
  have h := autorep_end_placeholder_unknown [] wit9line "2024/01/01" "10:00" "SU"
    (by decide) (by decide) (by decide) (by decide)
  exact h

/-! ## C2 — dependency extraction from condition strings -/

theorem splitAtRParen_eq (l : List Char) :
    ∀ a b, splitAtRParen l = some (a, b) → l = a ++ ')' :: b ∧ ')' ∉ a := by
  induction l with
  | nil =>
    intro a b h
    simp [splitAtRParen] at h
  | cons c cs ih =>
    intro a b h
    simp only [splitAtRParen] at h
    by_cases hc : c = ')'
    · rw [if_pos hc] at h
      obtain ⟨rfl, rfl⟩ := Prod.mk.injEq .. ▸ Option.some_inj.mp h
      subst hc
      exact ⟨rfl, List.not_mem_nil _⟩
    · rw [if_neg hc] at h
      cases hsp : splitAtRParen cs with
      | none =>
        rw [hsp] at h
        cases h
      | some p =>
        obtain ⟨a', b'⟩ := p
        rw [hsp] at h
        obtain ⟨rfl, rfl⟩ := Prod.mk.injEq .. ▸ Option.some_inj.mp h
        obtain ⟨hdec, hnp⟩ := ih a' b' hsp
        constructor
        · rw [List.cons_append, ← hdec]
        · intro hmem
          rcases List.mem_cons.mp hmem with he | hm
          · exact hc he.symm
          · exact hnp hm

theorem ciLeads_take (needle : List Char) :
    ∀ hay, ciLeads needle hay = true →
      needle.length ≤ hay.length ∧
      (hay.take needle.length).map Char.toLower = needle.map Char.toLower := by
  induction needle with
  | nil => intro hay _; simp
  | cons a as ih =>
    intro hay h
    cases hay with
    | nil => simp [ciLeads] at h
    | cons b bs =>
      simp only [ciLeads, Bool.and_eq_true, decide_eq_true_eq] at h
      obtain ⟨h1, h2⟩ := h
      obtain ⟨ih1, ih2⟩ := ih bs h2
      constructor
      · simpa using Nat.succ_le_succ ih1
      · simp only [List.length_cons, List.take_succ_cons, List.map_cons, ih2, h1]

theorem scanGo_sound (needle : List Char) :
    ∀ fuel s cap, cap ∈ scanGo needle fuel s →
      cap ≠ [] ∧ ')' ∉ cap ∧
      ∃ pre occ post, s = pre ++ occ ++ cap ++ ')' :: post ∧
        occ.map Char.toLower = needle.map Char.toLower := by
  intro fuel
  induction fuel with
  | zero =>
    intro s cap h
    simp [scanGo] at h
  | succ fuel ih =>
    intro s cap h
    cases s with
    | nil => simp [scanGo] at h
    | cons c cs =>
      simp only [scanGo] at h
      have hstep : ∀ h' : cap ∈ scanGo needle fuel cs,
          cap ≠ [] ∧ ')' ∉ cap ∧
          ∃ pre occ post, c :: cs = pre ++ occ ++ cap ++ ')' :: post ∧
            occ.map Char.toLower = needle.map Char.toLower := by
        intro h'
        obtain ⟨hne, hnp, pre, occ, post, hdec, hmap⟩ := ih cs cap h'
        exact ⟨hne, hnp, c :: pre, occ, post, by simp [hdec], hmap⟩
      by_cases hci : ciLeads needle (c :: cs) = true
      · rw [if_pos hci] at h
        cases hsp : splitAtRParen (List.drop needle.length (c :: cs)) with
        | none =>
          rw [hsp] at h
          dsimp only at h
          exact hstep h
        | some p =>
          obtain ⟨cap', rest⟩ := p
          rw [hsp] at h
          dsimp only at h
          by_cases hcap : cap' = []
          · rw [if_pos hcap] at h
            exact hstep h
          · rw [if_neg hcap] at h
            have hfull : c :: cs =
                (c :: cs).take needle.length ++ (cap' ++ ')' :: rest) := by
              conv_lhs => rw [← List.take_append_drop needle.length (c :: cs)]
              rw [(splitAtRParen_eq _ _ _ hsp).1]
            rcases List.mem_cons.mp h with he | hm
            · subst he
              obtain ⟨hlen, htake⟩ := ciLeads_take needle (c :: cs) hci
              obtain ⟨_, hnp⟩ := splitAtRParen_eq _ _ _ hsp
              refine ⟨hcap, hnp, [], (c :: cs).take needle.length, rest, ?_, htake⟩
              simpa using hfull
            · obtain ⟨hne, hnp, pre, occ, post, hdec2, hmap⟩ := ih rest cap hm
              obtain ⟨hlen, htake⟩ := ciLeads_take needle (c :: cs) hci
              refine ⟨hne, hnp,
                (c :: cs).take needle.length ++ cap' ++ ')' :: pre, occ, post, ?_, hmap⟩
              conv_lhs => rw [hfull, hdec2]
              simp
      · rw [if_neg hci] at h
        exact hstep h

theorem mem_concatLists {α : Type} (x : α) (ls : List (List α)) :
    x ∈ concatLists ls ↔ ∃ l ∈ ls, x ∈ l := by
  induction ls with
  | nil => simp [concatLists]
  | cons l ls ih => simp [concatLists, ih]

theorem mem_parse_condition (J cond : String) (x : String × String) :
    x ∈ parse_condition J cond ↔
      ∃ p ∈ preds, ∃ cap ∈ findallCapture p cond,
        pyStrip cap ≠ J ∧ x = (pyStrip cap, J) := by
  unfold parse_condition
  by_cases hc : cond = ""
  · subst hc
    rw [if_pos rfl]
    simp [findallCapture, scanGo]
  · rw [if_neg hc, mem_concatLists]
    constructor
    · rintro ⟨l, hl, hx⟩
      rw [List.mem_map] at hl
      obtain ⟨p, hp, rfl⟩ := hl
      rw [List.mem_filterMap] at hx
      obtain ⟨cap, hcap, hsome⟩ := hx
      by_cases hne : pyStrip cap ≠ J
      · rw [if_pos hne] at hsome
        exact ⟨p, hp, cap, hcap, hne, (Option.some_inj.mp hsome).symm⟩
      · rw [if_neg hne] at hsome
        cases hsome
    · rintro ⟨p, hp, cap, hcap, hne, rfl⟩
      refine ⟨_, List.mem_map_of_mem _ hp, List.mem_filterMap.mpr ⟨cap, hcap, ?_⟩⟩
      rw [if_pos hne]

/-- C2 (amended): the raw edges recorded for a job `J` from a condition
string are exactly the pairs `(X.strip, J)` where `X` is a capture of the
leftmost non-overlapping case-insensitive scan for `success(...)`,
`done(...)` or `failure(...)` and `X.strip ≠ J` (self-references are
dropped silently); and every such capture is a genuine occurrence — a
nonempty closing-parenthesis-free text sitting between a case-insensitive
occurrence of the predicate name plus `(` and a `)` in the condition.  (An
occurrence whose `pred(` begins inside the parentheses of an earlier match
of the same predicate is not seen by the scan, so it yields no edge.) -/
theorem parse_condition_amended (J cond : String) :
    (∀ x : String × String, x ∈ parse_condition J cond ↔
        ∃ p ∈ preds, ∃ cap ∈ findallCapture p cond,
          pyStrip cap ≠ J ∧ x = (pyStrip cap, J))
  ∧ (∀ p cap, p ∈ preds → cap ∈ findallCapture p cond →
      cap ≠ "" ∧ ')' ∉ cap.toList ∧
      ∃ pre occ post, cond.toList = pre ++ occ ++ cap.toList ++ ')' :: post ∧
        occ.map Char.toLower = (p.toList ++ ['(']).map Char.toLower) := by
  refine ⟨fun x => mem_parse_condition J cond x, ?_⟩
  intro p cap hp hcap
  unfold findallCapture at hcap
  rw [List.mem_map] at hcap
  obtain ⟨capL, hmem, rfl⟩ := hcap
  obtain ⟨hne, hnp, pre, occ, post, hdec, hmap⟩ := scanGo_sound _ _ _ _ hmem
  exact ⟨fun h => hne (congrArg String.data h), hnp, pre, occ, post, hdec, hmap⟩

/-- Witness for C2: in `"success(A) & done(b)"` parsed for job `C`, the
scan captures `A` (and `b`), and the corresponding edges are recorded. -/
theorem parse_condition_amended_witness :
    ("A", "C") ∈ parse_condition "C" "success(A) & done(b)"
  ∧ (("A" : String) ≠ "" ∧ ')' ∉ ("A" : String).toList) := by
  refine ⟨((parse_condition_amended "C" "success(A) & done(b)").1 ("A", "C")).mpr
      ⟨"success", by decide, "A", by decide, by decide, by decide⟩, ?_⟩
  have h := (parse_condition_amended "C" "success(A) & done(b)").2 "success" "A"
      (by decide) (by decide)
  exact ⟨h.1, h.2.1⟩

/-- Counterexample for C2 as frozen: the condition `success(success(x)`
contains the occurrence `success(x)` (with `x ≠ J` trimmed text free of
closing parentheses), yet no edge `(x, J)` is recorded: the scan's leftmost
match captures `success(x` and consumes the whole text, so the inner
occurrence is never seen. -/
theorem parse_condition_overlap_cex :
    listContainsSub "success(x)".toList "success(success(x)".toList = true
  ∧ ("x", "J") ∉ parse_condition "J" "success(success(x)"
  ∧ parse_condition "J" "success(success(x)" = [("success(x", "J")] := by
  exact ⟨by decide, by decide, by decide⟩

/-! ## C1 — impact analysis (`get_impacted_jobs`) -/

theorem mem_successors (g : Graph) (v w : String) :
    w ∈ successors g v ↔ (v, w) ∈ g.edges := by
  unfold successors
  rw [List.mem_map]
  constructor
  · rintro ⟨e, he, rfl⟩
    obtain ⟨e1, e2⟩ := e
    rw [List.mem_filter] at he
    obtain ⟨hmem, hv⟩ := he
    have h1 : e1 = v := by simpa using hv
    subst h1
    exact hmem
  · intro h
    exact ⟨(v, w), List.mem_filter.mpr ⟨h, by simp⟩, rfl⟩

theorem mem_stepClosure (g : Graph) (S : Finset String) (w : String) :
    w ∈ stepClosure g S ↔ w ∈ S ∨ ∃ u ∈ S, (u, w) ∈ g.edges := by
  unfold stepClosure
  simp [Finset.mem_union, Finset.mem_biUnion, List.mem_toFinset, mem_successors]

theorem closure_sound (g : Graph) (v : String) :
    ∀ n w, w ∈ closureIter g {v} n → w = v ∨ Relation.TransGen (EdgeRel g) v w := by
  intro n
  induction n with
  | zero =>
    intro w h
    left
    simpa [closureIter] using h
  | succ n ih =>
    intro w h
    simp only [closureIter] at h
    rcases (mem_stepClosure _ _ _).mp h with hS | ⟨u, hu, he⟩
    · exact ih w hS
    · rcases ih u hu with rfl | htg
      · exact Or.inr (Relation.TransGen.single he)
      · exact Or.inr (htg.tail he)

theorem closure_mono_succ (g : Graph) (S : Finset String) (n : Nat) :
    closureIter g S n ⊆ closureIter g S (n + 1) := by
  intro w h
  simp only [closureIter, stepClosure]
  exact Finset.mem_union_left _ h

theorem closure_le (g : Graph) (S : Finset String) :
    ∀ m n, m ≤ n → closureIter g S m ⊆ closureIter g S n := by
  intro m n h
  induction n, h using Nat.le_induction with
  | base => exact subset_rfl
  | succ n hmn ih => exact ih.trans (closure_mono_succ g S n)

theorem closure_subset_univ (g : Graph) (v : String) :
    ∀ n, closureIter g {v} n ⊆ insert v (g.edges.map (fun e => e.2)).toFinset := by
  intro n
  induction n with
  | zero =>
    intro w h
    simp only [closureIter, Finset.mem_singleton] at h
    subst h
    exact Finset.mem_insert_self _ _
  | succ n ih =>
    intro w h
    simp only [closureIter] at h
    rcases (mem_stepClosure _ _ _).mp h with hS | ⟨u, hu, he⟩
    · exact ih hS
    · apply Finset.mem_insert_of_mem
      rw [List.mem_toFinset, List.mem_map]
      exact ⟨(u, w), he, rfl⟩

theorem closure_stab (g : Graph) (v : String) (n : Nat)
    (h : closureIter g {v} n = closureIter g {v} (n + 1)) :
    ∀ m, n ≤ m → closureIter g {v} m = closureIter g {v} n := by
  intro m hm
  induction m, hm using Nat.le_induction with
  | base => rfl
  | succ m hmn ih =>
    show stepClosure g (closureIter g {v} m) = _
    rw [ih]
    exact h.symm

theorem closure_card_grow (g : Graph) (v : String) :
    ∀ n, (∀ k, k < n → closureIter g {v} k ≠ closureIter g {v} (k + 1)) →
      n + 1 ≤ (closureIter g {v} n).card := by
  intro n
  induction n with
  | zero =>
    intro _
    simp [closureIter]
  | succ n ih =>
    intro hall
    have h1 := ih (fun k hk => hall k (Nat.lt_succ_of_lt hk))
    have hne := hall n (Nat.lt_succ_self n)
    have hsub : closureIter g {v} n ⊂ closureIter g {v} (n + 1) :=
      Finset.ssubset_iff_subset_ne.mpr ⟨closure_mono_succ g _ n, hne⟩
    have h2 := Finset.card_lt_card hsub
    omega

theorem closure_fixed (g : Graph) (v : String) :
    stepClosure g (closureIter g {v} (g.edges.length + 1))
      = closureIter g {v} (g.edges.length + 1) := by
  by_cases hex : ∃ n ≤ g.edges.length, closureIter g {v} n = closureIter g {v} (n + 1)
  · obtain ⟨n, hn, hstab⟩ := hex
    have h1 : closureIter g {v} (g.edges.length + 1) = closureIter g {v} n :=
      closure_stab g v n hstab _ (by omega)
    have h2 : closureIter g {v} (g.edges.length + 2) = closureIter g {v} n :=
      closure_stab g v n hstab _ (by omega)
    calc stepClosure g (closureIter g {v} (g.edges.length + 1))
        = closureIter g {v} (g.edges.length + 2) := rfl
      _ = closureIter g {v} n := h2
      _ = closureIter g {v} (g.edges.length + 1) := h1.symm
  · push_neg at hex
    have hgrow := closure_card_grow g v (g.edges.length + 1)
      (fun k hk => hex k (by omega))
    have hsub := closure_subset_univ g v (g.edges.length + 1)
    have hcard := Finset.card_le_card hsub
    have h2 := Finset.card_insert_le v (g.edges.map (fun e => e.2)).toFinset
    have h3 : (g.edges.map (fun e => e.2)).toFinset.card ≤ g.edges.length :=
      le_trans (List.toFinset_card_le _) (by simp)
    omega

theorem mem_nxDescendants (g : Graph) (v w : String) :
    w ∈ nxDescendants g v ↔ w ≠ v ∧ Relation.TransGen (EdgeRel g) v w := by
  unfold nxDescendants
  rw [Finset.mem_erase]
  constructor
  · rintro ⟨hne, hmem⟩
    rcases closure_sound g v _ w hmem with rfl | htg
    · exact absurd rfl hne
    · exact ⟨hne, htg⟩
  · rintro ⟨hne, htg⟩
    refine ⟨hne, ?_⟩
    have hrt : Relation.ReflTransGen (EdgeRel g) v w := htg.to_reflTransGen
    clear htg hne
    induction hrt with
    | refl =>
      exact closure_le g {v} 0 _ (Nat.zero_le _) (by simp [closureIter])
    | tail hr he ih =>
      rw [← closure_fixed g v]
      exact (mem_stepClosure _ _ _).mpr (Or.inr ⟨_, ih, he⟩)

/-- C1 (amended): for any graph, `get_impacted_jobs` returns the empty set
when the queried job is not a node; on `FAILED`/`TERMINATED` it returns
exactly the nodes *other than the job itself* reachable from it by one or
more directed edges (the job is never a member of its own impact set, even
when it lies on a cycle); on `RUNNING` it returns exactly the immediate
successors; on every other status it returns the empty set. -/
theorem impacted_jobs_spec (g : Graph) (j s : String) :
    (j ∉ g.nodes → get_impacted_jobs g j s = ∅)
  ∧ ((s = "FAILED" ∨ s = "TERMINATED") → j ∈ g.nodes →
      ∀ w, w ∈ get_impacted_jobs g j s ↔
        w ≠ j ∧ Relation.TransGen (EdgeRel g) j w)
  ∧ (s = "RUNNING" → j ∈ g.nodes →
      ∀ w, w ∈ get_impacted_jobs g j s ↔ EdgeRel g j w)
  ∧ (s ≠ "FAILED" → s ≠ "TERMINATED" → s ≠ "RUNNING" →
      get_impacted_jobs g j s = ∅) := by
  refine ⟨?_, ?_, ?_, ?_⟩
  · intro hj
    unfold get_impacted_jobs
    by_cases h1 : s = "FAILED" ∨ s = "TERMINATED"
    · rw [if_pos h1, if_neg hj]
    · rw [if_neg h1]
      by_cases h3 : s = "RUNNING"
      · rw [if_pos h3, if_neg hj]
      · rw [if_neg h3]
  · intro hs hj w
    unfold get_impacted_jobs
    rw [if_pos hs, if_pos hj]
    exact mem_nxDescendants g j w
  · intro hs hj w
    unfold get_impacted_jobs
    have h1 : ¬ (s = "FAILED" ∨ s = "TERMINATED") := by
      rw [hs]
      decide
    rw [if_neg h1, if_pos hs, if_pos hj, List.mem_toFinset]
    exact mem_successors g j w
  · intro hf ht hr
    unfold get_impacted_jobs
    rw [if_neg (by rintro (h | h); exacts [hf h, ht h]), if_neg hr]

/-- Witness for C1 on the chain A → B → C: an absent job gives the empty
set, FAILED gives the transitive closure, RUNNING gives one hop, and an
unrelated status gives the empty set. -/
theorem impacted_jobs_spec_witness :
    get_impacted_jobs gWit "Z" "FAILED" = ∅
  ∧ "C" ∈ get_impacted_jobs gWit "A" "FAILED"
  ∧ "B" ∈ get_impacted_jobs gWit "A" "RUNNING"
  ∧ get_impacted_jobs gWit "A" "SUCCESS" = ∅ := by
  refine ⟨(impacted_jobs_spec gWit "Z" "FAILED").1 (by decide), ?_, ?_, ?_⟩
  · exact ((impacted_jobs_spec gWit "A" "FAILED").2.1 (Or.inl rfl) (by decide)
      "C").mpr ⟨by decide,
        Relation.TransGen.tail
          (Relation.TransGen.single (show ("A", "B") ∈ gWit.edges by decide))
          (show ("B", "C") ∈ gWit.edges by decide)⟩
  · exact ((impacted_jobs_spec gWit "A" "RUNNING").2.2.1 rfl (by decide)
      "B").mpr (by decide)
  · exact (impacted_jobs_spec gWit "A" "SUCCESS").2.2.2 (by decide) (by decide)
      (by decide)

/-- Counterexample for C1 as frozen: on the cycle A → B → A, node A is
reachable from itself by one or more directed edges, yet
`get_impacted_jobs(g, A, FAILED)` does not contain A (networkx descendants
exclude the source); so the impact set is not "all nodes reachable by one
or more edges". -/
theorem impacted_jobs_cycle_cex :
    Relation.TransGen (EdgeRel gCyc) "A" "A"
  ∧ "A" ∉ get_impacted_jobs gCyc "A" "FAILED"
  ∧ "B" ∈ get_impacted_jobs gCyc "A" "FAILED" :=
  ⟨Relation.TransGen.tail
     (Relation.TransGen.single (show ("A", "B") ∈ gCyc.edges by decide))
     (show ("B", "A") ∈ gCyc.edges by decide),
   by decide, by decide⟩

/-! ## C3 — graph construction invariants (`build_graph`) -/

/-- C3 (amended): the graph built from a jobs map and a raw-edge sequence
has node set exactly the job names; an edge is present iff it is a raw
edge whose two endpoints are both job names (so edges naming unknown jobs
are dropped); consequently no self-edge appears whenever the raw sequence
contains none — which is the case for every raw-edge sequence produced by
the condition parser, since it never records self-edges.  (`build_graph`
itself does not filter self-edges: a raw self-edge between known jobs
would be added, see the counterexample.) -/
theorem build_graph_spec (jobs : JobMap) (deps : List (String × String)) :
    (∀ v, v ∈ (build_graph jobs deps).nodes ↔ ∃ r, (v, r) ∈ jobs)
  ∧ (∀ e : String × String, e ∈ (build_graph jobs deps).edges ↔
      e ∈ deps ∧ (∃ r, (e.1, r) ∈ jobs) ∧ ∃ r, (e.2, r) ∈ jobs)
  ∧ ((∀ p, (p, p) ∉ deps) → ∀ p, (p, p) ∉ (build_graph jobs deps).edges)
  ∧ (∀ J c p, (p, p) ∉ parse_condition J c) := by
  have hedges : ∀ e : String × String, e ∈ (build_graph jobs deps).edges ↔
      e ∈ deps ∧ (∃ r, (e.1, r) ∈ jobs) ∧ ∃ r, (e.2, r) ∈ jobs := by
    intro e
    unfold build_graph
    rw [List.mem_filter, Bool.and_eq_true, ← lookupA_isSome_iff, ← lookupA_isSome_iff]
  refine ⟨?_, hedges, ?_, ?_⟩
  · intro v
    unfold build_graph
    simp only [List.mem_map]
    constructor
    · rintro ⟨kv, hkv, rfl⟩
      obtain ⟨k, r⟩ := kv
      exact ⟨r, hkv⟩
    · rintro ⟨r, hr⟩
      exact ⟨(v, r), hr, rfl⟩
  · intro hno p hp
    exact hno p ((hedges (p, p)).mp hp).1
  · intro J c p hp
    obtain ⟨q, _, cap, _, hne, heq⟩ := (mem_parse_condition J c (p, p)).mp hp
    injection heq with h1 h2
    exact hne (h1.symm.trans h2)

/-- Witness for C3: the known-endpoint edge is kept, the unknown-endpoint
edge is dropped, nodes are the job names, and no self-edge appears. -/
theorem build_graph_spec_witness :
    ("A", "B") ∈ (build_graph jW depsW).edges
  ∧ ("A", "X") ∉ (build_graph jW depsW).edges
  ∧ "B" ∈ (build_graph jW depsW).nodes
  ∧ ∀ p, (p, p) ∉ (build_graph jW depsW).edges := by
  refine ⟨((build_graph_spec jW depsW).2.1 ("A", "B")).mpr
      ⟨by decide, ⟨defaultJob "A", by decide⟩, ⟨defaultJob "B", by decide⟩⟩,
    ?_, ((build_graph_spec jW depsW).1 "B").mpr ⟨defaultJob "B", by decide⟩,
    (build_graph_spec jW depsW).2.2.1 ?_⟩
  · intro h
    obtain ⟨_, _, r, hr⟩ := ((build_graph_spec jW depsW).2.1 ("A", "X")).mp h
    have := (lookupA_isSome_iff jW "X").mpr ⟨r, hr⟩
    exact absurd this (by decide)
  · intro p hp
    rcases List.mem_cons.mp hp with h | h
    · injection h with h1 h2
      exact absurd (h1.symm.trans h2) (by decide)
    · rcases List.mem_cons.mp h with h' | h'
      · injection h' with h1 h2
        exact absurd (h1.symm.trans h2) (by decide)
      · cases h'

/-- Counterexample for C3 as frozen: `build_graph` does not filter
self-edges — a raw self-edge on a known job survives into the graph. -/
theorem build_graph_self_edge_cex :
    ("A", "A") ∈ (build_graph jCex [("A", "A")]).edges := by decide

/-! ## C10 and C4 — the JIL parser -/

theorem processJilLine_decomp (st : ParserState) (cur : Option String) (l : String) :
    processJilLine st cur l =
      (⟨jobsStep st.jobs cur l, st.dependencies ++ depsStep cur l, st.job_status⟩,
       curStep cur l) := by
  by_cases h1 : strStartsWith (pyStrip l) "insert_job:" = true
  · simp [processJilLine, jobsStep, depsStep, curStep, h1]
  · cases cur with
    | none => simp [processJilLine, jobsStep, depsStep, curStep, h1]
    | some c =>
      simp [processJilLine, jobsStep, depsStep, curStep, h1]
      split_ifs <;> simp

theorem runJil_status (ls : List String) :
    ∀ (st : ParserState) (cur : Option String),
      (runJil (st, cur) ls).1.job_status = st.job_status := by
  induction ls with
  | nil => intro st cur; rfl
  | cons l ls ih =>
    intro st cur
    show (runJil (processJilLine st cur l) ls).1.job_status = _
    rw [processJilLine_decomp]
    exact ih _ _

theorem runJil_jobs (ls : List String) :
    ∀ (st : ParserState) (cur : Option String),
      (runJil (st, cur) ls).1.jobs = jilJobs st.jobs cur ls := by
  induction ls with
  | nil => intro st cur; rfl
  | cons l ls ih =>
    intro st cur
    show (runJil (processJilLine st cur l) ls).1.jobs = _
    rw [processJilLine_decomp]
    exact ih _ _

theorem runJil_deps (ls : List String) :
    ∀ (st : ParserState) (cur : Option String),
      (runJil (st, cur) ls).1.dependencies = st.dependencies ++ jilDeps cur ls := by
  induction ls with
  | nil => intro st cur; simp [runJil, jilDeps]
  | cons l ls ih =>
    intro st cur
    show (runJil (processJilLine st cur l) ls).1.dependencies = _
    rw [processJilLine_decomp, ih]
    simp [jilDeps, List.append_assoc]

theorem lookupA_setJobField_self (m : JobMap) (c : String) (f : JobRec → JobRec) :
    lookupA (setJobField m c f) c = (lookupA m c).map f := by
  induction m with
  | nil => rfl
  | cons kv rest ih =>
    obtain ⟨k2, v2⟩ := kv
    simp only [setJobField, List.map_cons]
    by_cases hk : k2 = c
    · subst hk
      rw [if_pos rfl]
      simp [lookupA]
    · rw [if_neg hk]
      simp only [lookupA]
      rw [if_neg (fun h => hk h.symm), if_neg (fun h => hk h.symm)]
      exact ih

theorem lookupA_setJobField_ne (m : JobMap) (c : String) (f : JobRec → JobRec)
    (x : String) (h : x ≠ c) :
    lookupA (setJobField m c f) x = lookupA m x := by
  induction m with
  | nil => rfl
  | cons kv rest ih =>
    obtain ⟨k2, v2⟩ := kv
    simp only [setJobField, List.map_cons]
    by_cases hk : k2 = c
    · subst hk
      rw [if_pos rfl]
      simp only [lookupA]
      rw [if_neg h, if_neg h]
      exact ih
    · rw [if_neg hk]
      simp only [lookupA]
      by_cases hx : x = k2
      · rw [if_pos hx, if_pos hx]
      · rw [if_neg hx, if_neg hx]
        exact ih

theorem lookupA_applyField_self (m : JobMap) (c key value : String) :
    lookupA (applyField m c key value) c = (lookupA m c).map (fieldApply key value) :=
  lookupA_setJobField_self m c _

theorem lookupA_applyField_ne (m : JobMap) (c key value x : String) (h : x ≠ c) :
    lookupA (applyField m c key value) x = lookupA m x :=
  lookupA_setJobField_ne m c _ x h

theorem jilJobs_untouched (ls : List String) :
    ∀ (cur : Option String) (m : JobMap) (k : String),
      k ∉ jilUpserts ls → ¬ activeOn cur k →
      lookupA (jilJobs m cur ls) k = lookupA m k := by
  induction ls with
  | nil => intro cur m k _ _; rfl
  | cons l ls ih =>
    intro cur m k hk hact
    simp only [jilJobs]
    by_cases h1 : strStartsWith (pyStrip l) "insert_job:" = true
    · rw [jilUpserts, if_pos h1] at hk
      simp only [List.cons_append, List.mem_cons, List.nil_append] at hk
      push_neg at hk
      obtain ⟨hkj, hrest⟩ := hk
      have hjs : jobsStep m cur l =
          upsertA m (jilValOf l) (defaultJob (jilValOf l)) := by
        simp [jobsStep, h1]
      have hcs : curStep cur l = some (jilValOf l) := by
        simp [curStep, h1]
      rw [hjs, hcs, ih _ _ k hrest
        (fun hao => hkj (Option.some_inj.mp hao.1).symm)]
      exact lookupA_upsertA_ne _ _ _ _ hkj
    · rw [jilUpserts, if_neg h1] at hk
      simp only [List.nil_append] at hk
      have hcs : curStep cur l = cur := by simp [curStep, h1]
      cases cur with
      | none =>
        have hjs : jobsStep m none l = m := by simp [jobsStep, h1]
        rw [hjs, hcs]
        exact ih _ _ k hk hact
      | some c =>
        by_cases h2 : c ≠ "" ∧ (pyStrip l).toList.contains ':'
        · have hjs : jobsStep m (some c) l =
              applyField m c (jilKeyOf l) (jilValOf l) := by
            unfold jobsStep
            rw [if_neg h1]
            dsimp only
            rw [if_pos h2]
          have hkc : k ≠ c := by
            intro he
            exact hact ⟨by rw [he], by rw [he]; exact h2.1⟩
          rw [hjs, hcs, ih _ _ k hk hact]
          exact lookupA_applyField_ne _ _ _ _ _ hkc
        · have hjs : jobsStep m (some c) l = m := by
            unfold jobsStep
            rw [if_neg h1]
            dsimp only
            rw [if_neg h2]
          rw [hjs, hcs]
          exact ih _ _ k hk hact

theorem jilJobs_rerun (ls : List String) :
    ∀ (cur : Option String) (mA mB : JobMap),
      (∀ k, lookupA mB k = lookupA (jilJobs mA cur ls) k ∨
        k ∈ jilUpserts ls ∨ activeOn cur k) →
      (∀ c, cur = some c → c ≠ "" → lookupA mB c = lookupA mA c) →
      ∀ k, lookupA (jilJobs mB cur ls) k = lookupA (jilJobs mA cur ls) k := by
  induction ls with
  | nil =>
    intro cur mA mB h1 h2 k
    simp only [jilJobs] at h1 ⊢
    rcases h1 k with h | h | h
    · exact h
    · cases h
    · exact h2 k h.1 h.2
  | cons l ls ih =>
    intro cur mA mB h1 h2 k
    simp only [jilJobs] at h1 ⊢
    by_cases hins : strStartsWith (pyStrip l) "insert_job:" = true
    · have hjsA : jobsStep mA cur l =
          upsertA mA (jilValOf l) (defaultJob (jilValOf l)) := by
        simp [jobsStep, hins]
      have hjsB : jobsStep mB cur l =
          upsertA mB (jilValOf l) (defaultJob (jilValOf l)) := by
        simp [jobsStep, hins]
      have hcs : curStep cur l = some (jilValOf l) := by simp [curStep, hins]
      rw [hjsA, hcs] at h1 ⊢
      rw [hjsB]
      refine ih (some (jilValOf l)) _ _ ?_ ?_ k
      · intro k'
        by_cases hkv : k' = jilValOf l
        · subst hkv
          by_cases hne : jilValOf l = ""
          · by_cases hmem : jilValOf l ∈ jilUpserts ls
            · exact Or.inr (Or.inl hmem)
            · left
              rw [lookupA_upsertA_self,
                jilJobs_untouched ls _ _ (jilValOf l) hmem (fun hao => hao.2 hne),
                lookupA_upsertA_self]
          · exact Or.inr (Or.inr ⟨rfl, hne⟩)
        · rcases h1 k' with h | h | h
          · left
            rw [lookupA_upsertA_ne _ _ _ _ hkv]
            exact h
          · rw [jilUpserts, if_pos hins] at h
            simp only [List.cons_append, List.mem_cons, List.nil_append] at h
            rcases h with h | h
            · exact absurd h hkv
            · exact Or.inr (Or.inl h)
          · obtain ⟨hc, hkne⟩ := h
            by_cases hmem : k' ∈ jilUpserts ls
            · exact Or.inr (Or.inl hmem)
            · left
              rw [lookupA_upsertA_ne _ _ _ _ hkv, h2 k' hc hkne,
                jilJobs_untouched ls _ _ k' hmem
                  (fun hao => hkv (Option.some_inj.mp hao.1).symm),
                lookupA_upsertA_ne _ _ _ _ hkv]
      · intro c hc hcne
        have hcv : c = jilValOf l := (Option.some_inj.mp hc).symm
        subst hcv
        rw [lookupA_upsertA_self, lookupA_upsertA_self]
    · have hcs : curStep cur l = cur := by simp [curStep, hins]
      have hup : jilUpserts (l :: ls) = jilUpserts ls := by
        simp [jilUpserts, hins]
      rw [hup] at h1
      cases cur with
      | none =>
        have hA : jobsStep mA none l = mA := by simp [jobsStep, hins]
        have hB : jobsStep mB none l = mB := by simp [jobsStep, hins]
        rw [hA, hcs] at h1 ⊢
        rw [hB]
        refine ih none mA mB ?_ ?_ k
        · intro k'
          rcases h1 k' with h | h | h
          · exact Or.inl h
          · exact Or.inr (Or.inl h)
          · cases h.1
        · intro c hc
          cases hc
      | some c =>
        by_cases h2' : c ≠ "" ∧ (pyStrip l).toList.contains ':'
        · have hA : jobsStep mA (some c) l =
              applyField mA c (jilKeyOf l) (jilValOf l) := by
            unfold jobsStep
            rw [if_neg hins]
            dsimp only
            rw [if_pos h2']
          have hB : jobsStep mB (some c) l =
              applyField mB c (jilKeyOf l) (jilValOf l) := by
            unfold jobsStep
            rw [if_neg hins]
            dsimp only
            rw [if_pos h2']
          rw [hA, hcs] at h1 ⊢
          rw [hB]
          refine ih (some c) _ _ ?_ ?_ k
          · intro k'
            by_cases hkc : k' = c
            · subst hkc
              exact Or.inr (Or.inr ⟨rfl, h2'.1⟩)
            · rcases h1 k' with h | h | h
              · left
                rw [lookupA_applyField_ne _ _ _ _ _ hkc]
                exact h
              · exact Or.inr (Or.inl h)
              · exact absurd (Option.some_inj.mp h.1).symm hkc
          · intro c' hc' hcne
            have hcc : c' = c := (Option.some_inj.mp hc').symm
            subst hcc
            rw [lookupA_applyField_self, lookupA_applyField_self,
              h2 c' rfl hcne]
        · have hA : jobsStep mA (some c) l = mA := by
            unfold jobsStep
            rw [if_neg hins]
            dsimp only
            rw [if_neg h2']
          have hB : jobsStep mB (some c) l = mB := by
            unfold jobsStep
            rw [if_neg hins]
            dsimp only
            rw [if_neg h2']
          rw [hA, hcs] at h1 ⊢
          rw [hB]
          exact ih (some c) mA mB h1 h2 k

/-- C4 (amended): parsing is deterministic, but the parser object
accumulates dependency edges across invocations: re-parsing the same text
on the same parser leaves the jobs map (up to lookup) and the status map
exactly as after the first call, while the dependency-edge collection
after the second call is the first-call collection concatenated with
itself — every extracted edge is recorded a second time. -/
theorem parse_jil_reparse (t : String) :
    (∀ k, lookupA (parse_jil_script (parse_jil_script initState t) t).jobs k
        = lookupA (parse_jil_script initState t).jobs k)
  ∧ (parse_jil_script (parse_jil_script initState t) t).job_status
      = (parse_jil_script initState t).job_status
  ∧ (parse_jil_script (parse_jil_script initState t) t).dependencies
      = (parse_jil_script initState t).dependencies
        ++ (parse_jil_script initState t).dependencies := by
  unfold parse_jil_script
  refine ⟨?_, ?_, ?_⟩
  · intro k
    simp only [runJil_jobs]
    refine jilJobs_rerun (pyLines t) none _ _ ?_ ?_ k
    · intro k'
      exact Or.inl rfl
    · intro c hc
      cases hc
  · simp only [runJil_status]
  · simp only [runJil_deps]
    simp [initState]

/-- Counterexample for C4 as frozen: on the two-job script `tEx`, the
dependency-edge collection after a second parse on the same parser differs
from (indeed duplicates) the collection after the first parse. -/
theorem parse_jil_reparse_cex :
    (parse_jil_script (parse_jil_script initState tEx) tEx).dependencies
      ≠ (parse_jil_script initState tEx).dependencies
  ∧ (parse_jil_script initState tEx).dependencies = [("A", "B")]
  ∧ (parse_jil_script (parse_jil_script initState tEx) tEx).dependencies
      = [("A", "B"), ("A", "B")] := by
  exact ⟨by decide, by decide, by decide⟩

/-- C10: an `insert_job:` line always installs a fresh record with the
default field values for its job name — discarding whatever record (with
whatever field values) was previously stored under that name — while the
already-recorded dependency edges are left untouched and the line's job
name becomes the current job. -/
theorem insert_job_resets (st : ParserState) (cur : Option String)
    (rawLine : String) (r : JobRec)
    (hstart : strStartsWith (pyStrip rawLine) "insert_job:" = true)
    (hold : lookupA st.jobs (jilValOf rawLine) = some r) :
    lookupA (processJilLine st cur rawLine).1.jobs (jilValOf rawLine)
        = some (defaultJob (jilValOf rawLine))
  ∧ (processJilLine st cur rawLine).1.dependencies = st.dependencies
  ∧ (processJilLine st cur rawLine).2 = some (jilValOf rawLine) := by
  rw [processJilLine_decomp]
  refine ⟨?_, by simp [depsStep, hstart], by simp [curStep, hstart]⟩
  show lookupA (jobsStep st.jobs cur rawLine) _ = _
  have hjs : jobsStep st.jobs cur rawLine =
      upsertA st.jobs (jilValOf rawLine) (defaultJob (jilValOf rawLine)) := by
    simp [jobsStep, hstart]
  rw [hjs]
  exact lookupA_upsertA_self _ _ _

/-- Witness for C10: job A, previously stored with non-default fields, is
reset to the default record by a repeated `insert_job: A` line while the
recorded edge list survives. -/
theorem insert_job_resets_witness :
    lookupA (processJilLine stW (some "A") "insert_job: A").1.jobs "A"
        = some (defaultJob "A")
  ∧ (processJilLine stW (some "A") "insert_job: A").1.dependencies
      = [("Z", "A")] := by
  have h := insert_job_resets stW (some "A") "insert_job: A"
      ⟨"A", "box", "run.sh", "success(Z)", "", "m1", "u1"⟩ (by decide) (by decide)
  exact ⟨h.1, h.2.1⟩
